import Mathlib

/-!
Shallow embedding of the row-access and row-mutation core of the dolt
table store, covering:

* `go/libraries/doltcore/table/keyless_reader.go` — the keyless table
  reader (`keylessTableReader.ReadRow` and its construction variants),
  embedded directly from the source;
* the Row Codec (`row.KeylessRowsFromTuples`, `encode`/`decode`) and the
  Update Engine (`executeUpdate`), whose implementations are not part of
  the source tree here (only `sqlupdate_test.go` is); these are modelled
  from the specification, as marked on each definition.

Machine integers (`uint64` counts and offsets) are modelled as `Nat`;
the Go code never exercises overflow on them in the properties below.
-/

namespace Dolt

/-- A typed field value, the tagged-union row representation of the spec
(null / bool / int / uint / string; other variants are orthogonal to the
claims considered here). -/
inductive Value where
  | null : Value
  | bool (b : Bool) : Value
  | int (i : Int) : Value
  | uint (n : Nat) : Value
  | str (s : String) : Value
deriving DecidableEq, Repr

/-- Declared column types matching the `Value` variants. -/
inductive ValType where
  | tBool | tInt | tUint | tStr
deriving DecidableEq, Repr

/-- A schema column: stable tag, declared type, nullability, primary-key
membership. -/
structure Column where
  tag : Nat
  typ : ValType
  nullable : Bool
  isPk : Bool
deriving DecidableEq, Repr

/-- A schema is the ordered list of its columns. -/
abbrev Schema := List Column

/-- A key or value tuple: an ordered sequence of typed values. -/
abbrev Tuple := List Value

/-- A logical row, represented as the list of its field values in schema
column order (the tag of field `i` is the tag of schema column `i`). -/
abbrev Row := List Value

/-- `true` iff the schema declares at least one primary-key column; a
schema with none is keyless. -/
def Schema.hasPk (s : Schema) : Bool := s.any (·.isPk)

/-- Error taxonomy of the core (spec §7), together with the reader's
end-of-sequence signal (`io.EOF` in the source, a normal control signal). -/
inductive TableError where
  | eof : TableError
  | malformedRow : TableError
  | notImplemented (msg : String) : TableError
deriving DecidableEq, Repr

/-- Modelled from the spec: `row.KeylessRowsFromTuples` is not under the
source tree (only its call site in `keyless_reader.go` is).  Per spec
§4.1/§3, the value tuple's first field is the duplicate count (a positive
integer) and the remainder is the row payload; decoding fails with a
`MalformedRowError` if the count field is missing or non-positive.  The
key tuple (a content hash plus discriminator) does not contribute fields
to the logical row. -/
def KeylessRowsFromTuples (_key val : Tuple) : Except TableError (Row × Nat) :=
  match val with
  | Value.uint n :: payload => if 1 ≤ n then .ok (payload, n) else .error .malformedRow
  | _ => .error .malformedRow

/-- Which iteration primitive of the Ordered Content-Addressed Map
produced an iterator (spec §2: the map supports plain, buffered, offset
and from-key iteration). -/
inductive IterKind where
  | plain : IterKind
  | buffered : IterKind
  | bufferedAt (start : Nat) : IterKind
deriving DecidableEq, Repr

/-- Modelled from the spec: the external map's iterator, reduced to the
primitive that created it plus the remaining physical entries in key
order. -/
structure MapIterator where
  kind : IterKind
  entries : List (Tuple × Tuple)
deriving DecidableEq, Repr

/-- Modelled from the spec: `types.Map.Iterator` — forward iteration from
the start of the map, unbuffered. -/
def mapIterOf (m : List (Tuple × Tuple)) : MapIterator := ⟨.plain, m⟩

/-- Modelled from the spec: `types.Map.BufferedIterator` — forward
iteration from the start of the map with read-ahead buffering. -/
def mapBufferedIterOf (m : List (Tuple × Tuple)) : MapIterator := ⟨.buffered, m⟩

/-- Modelled from the spec: `types.Map.BufferedIteratorAt` — buffered
forward iteration starting at physical entry offset `start`. -/
def mapBufferedIterAt (m : List (Tuple × Tuple)) (start : Nat) : MapIterator :=
  ⟨.bufferedAt start, m.drop start⟩

/-- The `keylessTableReader` struct of `keyless_reader.go`: a map
iterator, the schema, and the duplicate-buffering state (`row`,
`duplicates`). -/
structure KeylessTableReader where
  iter : MapIterator
  sch : Schema
  row : Row
  duplicates : Nat
deriving DecidableEq, Repr

namespace keylessTableReader

/-- `keylessTableReader.ReadRow`, embedded from the source: if no
duplicates are buffered, pull the next physical entry (end of map gives
`io.EOF`), decode it via `row.KeylessRowsFromTuples` (propagating a
decode error), buffer the logical row with its count; then decrement the
count by one and return the buffered row.  The returned reader is the
mutated receiver state. -/
def ReadRow (rdr : KeylessTableReader) : Except TableError (Row × KeylessTableReader) :=
  if rdr.duplicates = 0 then
    match rdr.iter.entries with
    | [] => .error .eof
    | (key, val) :: rest =>
      match KeylessRowsFromTuples key val with
      | .error e => .error e
      | .ok (r, dups) =>
        .ok (r, { rdr with iter := { rdr.iter with entries := rest }, row := r, duplicates := dups - 1 })
  else
    .ok (rdr.row, { rdr with duplicates := rdr.duplicates - 1 })

/-- `keylessTableReader.ReadRow` again, embedded with the receiver state
the Go method leaves behind on every path, not just the successful ones:
by the time a decode fails, the pointer receiver has already advanced its
iterator past the entry, and the multi-valued assignment leaves the error
return's zero values in the buffer fields (`row = nil`,
`duplicates = 0`; that `row.KeylessRowsFromTuples` returns zero values
alongside its error is the Go convention, modelled from the spec since
the function is not under the source tree).  A further call therefore
continues the scan at the next physical entry.  On end-of-sequence the
receiver is unchanged, so further calls keep returning `io.EOF`.
`ReadRow` above is the outcome projection of this definition (see
`readRow_projects_withState`). -/
def ReadRowWithState (rdr : KeylessTableReader) :
    Except TableError Row × KeylessTableReader :=
  if rdr.duplicates = 0 then
    match rdr.iter.entries with
    | [] => (.error .eof, rdr)
    | (key, val) :: rest =>
      match KeylessRowsFromTuples key val with
      | .error e =>
        (.error e,
         { rdr with iter := { rdr.iter with entries := rest }, row := [], duplicates := 0 })
      | .ok (r, dups) =>
        (.ok r,
         { rdr with iter := { rdr.iter with entries := rest }, row := r, duplicates := dups - 1 })
  else
    (.ok rdr.row, { rdr with duplicates := rdr.duplicates - 1 })

end keylessTableReader

/-- `newKeylessTableReader`, embedded from the source: the table's row
map is iterated with `Iterator` when `buffered` is true and with
`BufferedIterator` when `buffered` is false (this is the branch shape of
the source, lines 85–93). -/
def newKeylessTableReader (tbl : List (Tuple × Tuple)) (sch : Schema) (buffered : Bool) :
    KeylessTableReader :=
  let iter := if buffered then mapIterOf tbl else mapBufferedIterOf tbl
  { iter := iter, sch := sch, row := [], duplicates := 0 }

/-- `newKeylessTableReaderForPartition`, embedded from the source: a
buffered iterator positioned at physical offset `start`; the `stop`
argument (the partition's end bound, `end` in Go) is accepted but never
used. -/
def newKeylessTableReaderForPartition (tbl : List (Tuple × Tuple)) (sch : Schema)
    (start stop : Nat) : KeylessTableReader :=
  { iter := mapBufferedIterAt tbl start, sch := sch, row := [], duplicates := 0 }

/-- A key range descriptor (`noms.ReadRange`); opaque here, its contents
are never inspected by the code in scope. -/
structure ReadRange where
  startKey : Tuple
  inclusive : Bool
deriving DecidableEq, Repr

/-- `newKeylessTableReaderForRanges`, embedded from the source: always
fails with the not-implemented error, returning no reader. -/
def newKeylessTableReaderForRanges (tbl : List (Tuple × Tuple)) (sch : Schema)
    (ranges : List ReadRange) : Except TableError KeylessTableReader :=
  .error (.notImplemented "newKeylessTableReaderForRanges is unimplemented")

/-- Run up to `fuel` successive `ReadRow` calls, collecting the emitted
rows in order and the terminating error (if one is reached within
`fuel`). -/
def runReads : Nat → KeylessTableReader → List Row × Option TableError
  | 0, _ => ([], none)
  | fuel + 1, rdr =>
    match keylessTableReader.ReadRow rdr with
    | .error e => ([], some e)
    | .ok (r, rdr') =>
      let rest := runReads fuel rdr'
      (r :: rest.1, rest.2)

/-- Run up to `fuel` successive `ReadRow` calls through the receiver
state (`ReadRowWithState`), collecting each call's outcome — a row or an
error — in order.  Unlike `runReads`, this runner does not stop at the
first error, matching a caller that keeps invoking the method. -/
def readOutcomes : Nat → KeylessTableReader → List (Except TableError Row)
  | 0, _ => []
  | fuel + 1, rdr =>
    (keylessTableReader.ReadRowWithState rdr).1
      :: readOutcomes fuel (keylessTableReader.ReadRowWithState rdr).2

/-- The duplicate count stored in a physical entry (0 when the entry does
not decode). -/
def entryCount (e : Tuple × Tuple) : Nat :=
  match KeylessRowsFromTuples e.1 e.2 with
  | .ok (_, n) => n
  | .error _ => 0

/-- The logical rows a single physical entry stands for: its decoded row
repeated `count` times. -/
def expandEntry (e : Tuple × Tuple) : List Row :=
  match KeylessRowsFromTuples e.1 e.2 with
  | .ok (r, n) => List.replicate n r
  | .error _ => []

/-- The full logical-row sequence of a list of physical entries in map
order. -/
def expansion (es : List (Tuple × Tuple)) : List Row := es.flatMap expandEntry

/-- Total logical-row count of a list of physical entries,
`sum(counts)`. -/
def totalCount (es : List (Tuple × Tuple)) : Nat := (es.map entryCount).sum

/-- Every physical entry in the list decodes successfully. -/
def WFEntries (es : List (Tuple × Tuple)) : Prop :=
  ∀ e ∈ es, (KeylessRowsFromTuples e.1 e.2).isOk = true

instance : DecidablePred WFEntries := fun es =>
  inferInstanceAs (Decidable (∀ e ∈ es, _))

/-- The values of a row at the primary-key columns, in schema order; this
is the row's key tuple for a primary-keyed schema. -/
def selectPk : Schema → Row → Tuple
  | c :: cs, v :: vs => if c.isPk then v :: selectPk cs vs else selectPk cs vs
  | _, _ => []

/-- The values of a row at the non-primary-key columns, in schema order;
this is the row's value tuple for a primary-keyed schema. -/
def selectNonPk : Schema → Row → Tuple
  | c :: cs, v :: vs => if c.isPk then selectNonPk cs vs else v :: selectNonPk cs vs
  | _, _ => []

/-- Rebuild a row from its key tuple and value tuple, walking the schema
and drawing each field from the key part (primary-key column) or the
value part (other column). -/
def mergePkRow : Schema → Tuple → Tuple → Row
  | c :: cs, ks, vs =>
    if c.isPk then
      match ks with
      | k :: ks2 => k :: mergePkRow cs ks2 vs
      | [] => []
    else
      match vs with
      | v :: vs2 => v :: mergePkRow cs ks vs2
      | [] => []
  | [], _, _ => []

/-- Modelled from the spec: the keyless key tuple is a content hash of
the full row plus a uniquifying discriminator (spec §3); no property in
scope depends on the hash function, so it is abstracted as the row
content itself. -/
def keylessKey (r : Row) : Tuple := r

/-- Modelled from the spec: the Row Codec's `encode(logicalRow,
duplicateCount, schema) -> (keyTuple, valueTuple)` (spec §4.1).  For a
primary-keyed schema the key tuple is the primary-key columns in declared
order and the value tuple the remaining columns; for a keyless schema the
value tuple's leading field is the duplicate count followed by the row
payload. -/
def encode (s : Schema) (r : Row) (n : Nat) : Tuple × Tuple :=
  if s.hasPk then (selectPk s r, selectNonPk s r)
  else (keylessKey r, Value.uint n :: r)

/-- Modelled from the spec: the Row Codec's `decode(keyTuple, valueTuple,
schema) -> (LogicalRow, duplicateCount)` (spec §4.1).  For primary-keyed
schemas the duplicate count is always 1; for keyless schemas the value
tuple is parsed by `KeylessRowsFromTuples`. -/
def decode (s : Schema) (key val : Tuple) : Except TableError (Row × Nat) :=
  if s.hasPk then .ok (mergePkRow s key val, 1)
  else KeylessRowsFromTuples key val

/-- Statement-level error taxonomy of the Update Engine (spec §7). -/
inductive UpdateError where
  | duplicateAssignmentColumn (tag : Nat) : UpdateError
  | nullConstraintViolation (tag : Nat) : UpdateError
  | typeMismatch (tag : Nat) : UpdateError
  | primaryKeyCollision (key : Tuple) : UpdateError
deriving DecidableEq, Repr

instance {ε α : Type} [DecidableEq ε] [DecidableEq α] : DecidableEq (Except ε α) := fun a b =>
  match a, b with
  | .ok x, .ok y =>
    if h : x = y then isTrue (by rw [h])
    else isFalse (fun hh => by cases hh; exact h rfl)
  | .error x, .error y =>
    if h : x = y then isTrue (by rw [h])
    else isFalse (fun hh => by cases hh; exact h rfl)
  | .ok _, .error _ => isFalse (fun hh => by cases hh)
  | .error _, .ok _ => isFalse (fun hh => by cases hh)

/-- Whether a literal value can be coerced to a declared column type:
identity on a matching type, plus non-negative int literals into uint
columns; every other pairing is a mismatch (the test matrix in
`sqlupdate_test.go` rejects all cross-type pairs). -/
def coerceValue (v : Value) (t : ValType) : Option Value :=
  match v, t with
  | Value.bool b, ValType.tBool => some (Value.bool b)
  | Value.int i, ValType.tInt => some (Value.int i)
  | Value.int i, ValType.tUint => if 0 ≤ i then some (Value.uint i.toNat) else none
  | Value.uint n, ValType.tUint => some (Value.uint n)
  | Value.str s, ValType.tStr => some (Value.str s)
  | _, _ => none

/-- Modelled from the spec: the Assignment Validator (spec §4.4).  A null
against a NOT NULL column is a `NullConstraintViolation`; otherwise the
literal is coerced to the column's declared type or rejected with a
`TypeMismatchError`. -/
def validateAssignment (c : Column) (v : Value) : Except UpdateError Value :=
  match v with
  | Value.null =>
    if c.nullable then .ok Value.null else .error (.nullConstraintViolation c.tag)
  | w =>
    match coerceValue w c.typ with
    | some w2 => .ok w2
    | none => .error (.typeMismatch c.tag)

/-- First assignment for a column tag, if any. -/
def lookupTag (asgns : List (Nat × Value)) (t : Nat) : Option Value :=
  match asgns.find? (fun a => a.1 = t) with
  | some a => some a.2
  | none => none

/-- Modelled from the spec: build the candidate mutated row (spec §4.3
step 3) by walking the schema-aligned fields of a row and putting every
assigned column through the Assignment Validator; the first validation
failure aborts. -/
def applyAssignments (asgns : List (Nat × Value)) : List (Column × Value) → Except UpdateError Row
  | [] => .ok []
  | (c, v) :: rest =>
    match lookupTag asgns c.tag with
    | none =>
      match applyAssignments asgns rest with
      | .ok vs => .ok (v :: vs)
      | .error e => .error e
    | some w =>
      match validateAssignment c w with
      | .error e => .error e
      | .ok w2 =>
        match applyAssignments asgns rest with
        | .ok vs => .ok (w2 :: vs)
        | .error e => .error e

/-- The candidate mutated row for `r` under the assignment list, aligned
with schema `s`. -/
def candidateRow (s : Schema) (asgns : List (Nat × Value)) (r : Row) : Except UpdateError Row :=
  applyAssignments asgns (s.zip r)

/-- A staged change of the Update Engine: the old key, the new key and
the new row of one accepted mutation (spec glossary: Staged change). -/
structure Staged where
  oldKey : Tuple
  newKey : Tuple
  newRow : Row
deriving DecidableEq, Repr

/-- First natural that appears again later in the list, if any. -/
def firstDupNat : List Nat → Option Nat
  | [] => none
  | x :: xs => if x ∈ xs then some x else firstDupNat xs

/-- Modelled from the spec: the Update Engine's scan (spec §4.3 steps
2–3).  Rows are visited in map order; for each row satisfying the
predicate the candidate mutated row is built through the Assignment
Validator (a validation failure aborts the whole statement); a candidate
equal to the original row is counted as unchanged, any other candidate is
staged as `{oldKey, newKey, newRow}`.  Returns the staged-change list and
the unchanged count. -/
def scanRows (s : Schema) (pred : Row → Bool) (asgns : List (Nat × Value)) :
    List Row → Except UpdateError (List Staged × Nat)
  | [] => .ok ([], 0)
  | r :: rs =>
    if pred r then
      match candidateRow s asgns r with
      | .error e => .error e
      | .ok r2 =>
        match scanRows s pred asgns rs with
        | .error e => .error e
        | .ok (st, unch) =>
          if r2 = r then .ok (st, unch + 1)
          else .ok (⟨selectPk s r, selectPk s r2, r2⟩ :: st, unch)
    else scanRows s pred asgns rs

/-- First key that appears again later in the list, if any. -/
def firstDup : List Tuple → Option Tuple
  | [] => none
  | k :: ks => if k ∈ ks then some k else firstDup ks

/-- The keys of the rows not superseded by any staged change. -/
def untouchedKeys (s : Schema) (rows : List Row) (st : List Staged) : List Tuple :=
  (rows.map (selectPk s)).filter (fun k => decide (k ∉ st.map (·.oldKey)))

/-- Modelled from the spec: the Collision Detector (spec §4.5), run after
the scan over the staged new keys plus all untouched existing keys;
reports a key that appears more than once. -/
def collisionCheck (s : Schema) (rows : List Row) (st : List Staged) : Option Tuple :=
  firstDup (st.map (·.newKey) ++ untouchedKeys s rows st)

/-- Modelled from the spec: the commit step (spec §4.3 step 5) — derive
the new row list by removing every staged old key's row and inserting
every staged new row.  Physical key-order maintenance belongs to the
external map collaborator and is not observed by any property in scope,
so insertion is modelled as appending. -/
def commitStaged (s : Schema) (rows : List Row) (st : List Staged) : List Row :=
  rows.filter (fun r => decide (selectPk s r ∉ st.map (·.oldKey))) ++ st.map (·.newRow)

/-- The Update Engine's result record (spec §3: Update Result). -/
structure UpdateResult where
  newRows : List Row
  rowsUpdated : Nat
  rowsUnchanged : Nat
  errorsIgnored : Nat
deriving DecidableEq, Repr

/-- Modelled from the spec: `executeUpdate` (spec §4.3; the Go
implementation is not under the source tree, only `sqlupdate_test.go`
is).  Rejects a duplicated assignment column outright, scans and stages,
runs the Collision Detector, and only then commits every staged change at
once, tallying `rowsUpdated`/`rowsUnchanged`; `errorsIgnored` is always 0
in strict mode. -/
def executeUpdate (s : Schema) (rows : List Row) (pred : Row → Bool)
    (asgns : List (Nat × Value)) : Except UpdateError UpdateResult :=
  match firstDupNat (asgns.map (·.1)) with
  | some t => .error (.duplicateAssignmentColumn t)
  | none =>
    match scanRows s pred asgns rows with
    | .error e => .error e
    | .ok (st, unch) =>
      match collisionCheck s rows st with
      | some k => .error (.primaryKeyCollision k)
      | none => .ok ⟨commitStaged s rows st, st.length, unch, 0⟩

/-- The row list the caller retains after an `executeUpdate` call: the
new snapshot's rows on success, the untouched input snapshot's rows on
error (spec §4.3 step 6, §8 property 3). -/
def retainedRows (s : Schema) (rows : List Row) (pred : Row → Bool)
    (asgns : List (Nat × Value)) : List Row :=
  match executeUpdate s rows pred asgns with
  | .ok res => res.newRows
  | .error _ => rows

/-- The `rowsUpdated` count the caller observes: the result's count on
success, 0 on error (no result is produced). -/
def reportedRowsUpdated (s : Schema) (rows : List Row) (pred : Row → Bool)
    (asgns : List (Nat × Value)) : Nat :=
  match executeUpdate s rows pred asgns with
  | .ok res => res.rowsUpdated
  | .error _ => 0

/-! ### Reader lemmas -/

/-- A successful decode always carries a positive duplicate count. -/
theorem keylessRows_pos (key val : Tuple) (r : Row) (n : Nat)
    (h : KeylessRowsFromTuples key val = .ok (r, n)) : 1 ≤ n := by
  unfold KeylessRowsFromTuples at h
  split at h
  · split at h
    · simp only [Except.ok.injEq, Prod.mk.injEq] at h
      obtain ⟨-, h2⟩ := h
      omega
    · exact absurd h (by simp)
  · exact absurd h (by simp)

/-- A failing decode fails with `MalformedRowError`. -/
theorem keylessRows_fail (key val : Tuple)
    (h : (KeylessRowsFromTuples key val).isOk = false) :
    KeylessRowsFromTuples key val = .error .malformedRow := by
  unfold KeylessRowsFromTuples at h ⊢
  cases val with
  | nil => rfl
  | cons v vs =>
    cases v with
    | uint n =>
      by_cases hn : 1 ≤ n
      · simp only [hn, if_true] at h
        simp [Except.isOk, Except.toBool] at h
      · simp [hn]
    | null => rfl
    | bool b => rfl
    | int i => rfl
    | str s2 => rfl

/-- A successful decode determines the entry's count. -/
theorem entryCount_eq (e : Tuple × Tuple) (r : Row) (n : Nat)
    (h : KeylessRowsFromTuples e.1 e.2 = .ok (r, n)) : entryCount e = n := by
  unfold entryCount
  rw [h]

/-- A successful decode determines the entry's expansion. -/
theorem expandEntry_eq (e : Tuple × Tuple) (r : Row) (n : Nat)
    (h : KeylessRowsFromTuples e.1 e.2 = .ok (r, n)) :
    expandEntry e = List.replicate n r := by
  unfold expandEntry
  rw [h]

/-- While duplicates are buffered, `ReadRow` returns the buffered row and
decrements the remaining count by exactly one. -/
theorem readRow_emit (rdr : KeylessTableReader) (h : rdr.duplicates ≠ 0) :
    keylessTableReader.ReadRow rdr
      = .ok (rdr.row, { rdr with duplicates := rdr.duplicates - 1 }) := by
  unfold keylessTableReader.ReadRow
  simp [h]

/-- One-step unfolding of `runReads`. -/
theorem runReads_succ (fuel : Nat) (rdr : KeylessTableReader) :
    runReads (fuel + 1) rdr =
      match keylessTableReader.ReadRow rdr with
      | .error e => ([], some e)
      | .ok (r, rdr') => (r :: (runReads fuel rdr').1, (runReads fuel rdr').2) := rfl

/-- With no duplicate buffered, the trace of a reader does not depend on
the stale `row` field. -/
theorem runReads_row_irrel (fuel : Nat) (k : IterKind) (es : List (Tuple × Tuple))
    (sch : Schema) (r1 r2 : Row) :
    runReads fuel ⟨⟨k, es⟩, sch, r1, 0⟩ = runReads fuel ⟨⟨k, es⟩, sch, r2, 0⟩ := by
  cases fuel with
  | zero => rfl
  | succ fuel =>
    rw [runReads_succ, runReads_succ]
    unfold keylessTableReader.ReadRow
    cases es with
    | nil => rfl
    | cons e rest =>
      obtain ⟨ek, ev⟩ := e
      simp only [reduceIte]

/-- Unrolling the duplicate buffer: with `d` duplicates remaining, the
first `d` reads emit the buffered row, after which the reader continues
with no duplicate buffered. -/
theorem runReads_dup (d : Nat) (fuel : Nat) (it : MapIterator) (sch : Schema) (r : Row) :
    runReads (d + fuel) ⟨it, sch, r, d⟩ =
      (List.replicate d r ++ (runReads fuel ⟨it, sch, r, 0⟩).1,
       (runReads fuel ⟨it, sch, r, 0⟩).2) := by
  induction d with
  | zero => simp
  | succ d ih =>
    have hstep : keylessTableReader.ReadRow ⟨it, sch, r, d + 1⟩
        = .ok (r, ⟨it, sch, r, d⟩) := by
      unfold keylessTableReader.ReadRow
      simp
    have hfuel : d + 1 + fuel = (d + fuel) + 1 := by omega
    rw [hfuel, runReads_succ, hstep]
    simp only
    rw [ih]
    simp [List.replicate_succ]

/-- Composition: a reader whose iterator holds `pre ++ post` (all of
`pre` decodable) first emits exactly the expansion of `pre`, then behaves
as a reader over `post`. -/
theorem runReads_append (pre : List (Tuple × Tuple)) (post : List (Tuple × Tuple))
    (k : IterKind) (sch : Schema) (r : Row) (fuel : Nat) (hwf : WFEntries pre) :
    runReads (totalCount pre + fuel) ⟨⟨k, pre ++ post⟩, sch, r, 0⟩ =
      (expansion pre ++ (runReads fuel ⟨⟨k, post⟩, sch, r, 0⟩).1,
       (runReads fuel ⟨⟨k, post⟩, sch, r, 0⟩).2) := by
  induction pre generalizing r with
  | nil => simp [expansion, totalCount]
  | cons e pre ih =>
    obtain ⟨ek, ev⟩ := e
    have hok : (KeylessRowsFromTuples ek ev).isOk = true :=
      hwf (ek, ev) (List.mem_cons_self _ _)
    obtain ⟨r0, n, hdec⟩ : ∃ r0 n, KeylessRowsFromTuples ek ev = .ok (r0, n) := by
      cases h : KeylessRowsFromTuples ek ev with
      | error e => rw [h] at hok; simp [Except.isOk, Except.toBool] at hok
      | ok p =>
        obtain ⟨r0, n⟩ := p
        exact ⟨r0, n, rfl⟩
    have hn : 1 ≤ n := keylessRows_pos _ _ _ _ hdec
    have hcount : totalCount ((ek, ev) :: pre) = n + totalCount pre := by
      simp [totalCount, entryCount_eq (ek, ev) r0 n hdec]
    have hstep : keylessTableReader.ReadRow ⟨⟨k, ((ek, ev) :: pre) ++ post⟩, sch, r, 0⟩
        = .ok (r0, ⟨⟨k, pre ++ post⟩, sch, r0, n - 1⟩) := by
      unfold keylessTableReader.ReadRow
      simp [hdec]
    have hfuel : totalCount ((ek, ev) :: pre) + fuel = ((n - 1) + (totalCount pre + fuel)) + 1 := by
      rw [hcount]; omega
    rw [hfuel, runReads_succ, hstep]
    simp only
    rw [runReads_dup (n - 1) (totalCount pre + fuel) ⟨k, pre ++ post⟩ sch r0]
    rw [ih r0 (fun e he => hwf e (List.mem_cons_of_mem _ he))]
    rw [runReads_row_irrel fuel k post sch r0 r]
    have hexp : expansion ((ek, ev) :: pre) = List.replicate n r0 ++ expansion pre := by
      simp [expansion, expandEntry_eq (ek, ev) r0 n hdec]
    rw [hexp]
    have hrep : (List.replicate n r0 : List Row) = r0 :: List.replicate (n - 1) r0 := by
      cases n with
      | zero => omega
      | succ m => simp [List.replicate_succ]
    rw [hrep]
    simp

/-- The expansion of a list of entries has exactly `sum(counts)`
elements. -/
theorem expansion_length (es : List (Tuple × Tuple)) :
    (expansion es).length = totalCount es := by
  induction es with
  | nil => simp [expansion, totalCount]
  | cons e es ih =>
    have hlen : (expandEntry e).length = entryCount e := by
      unfold expandEntry entryCount
      cases h : KeylessRowsFromTuples e.1 e.2 with
      | error e => simp
      | ok p => simp
    simp only [expansion, totalCount, List.flatMap_cons, List.length_append, List.map_cons,
      List.sum_cons] at ih ⊢
    rw [hlen, ih]

/-- The keys of the expanded logical-row sequence: each entry's key
repeated its count many times, in map order. -/
def expandedKeys (es : List (Tuple × Tuple)) : List Tuple :=
  es.flatMap (fun e => List.replicate (entryCount e) e.1)

/-- Expansion preserves any reflexive ordering of the physical keys: if
the entry keys are pairwise related in map order, so are the keys of the
expanded row sequence. -/
theorem pairwise_expandedKeys (R : Tuple → Tuple → Prop) (hrefl : ∀ t, R t t)
    (es : List (Tuple × Tuple)) (h : (es.map Prod.fst).Pairwise R) :
    (expandedKeys es).Pairwise R := by
  rw [List.pairwise_map] at h
  unfold expandedKeys
  rw [List.pairwise_flatMap]
  constructor
  · intro a _
    rw [List.pairwise_replicate]
    exact Or.inr (hrefl _)
  · refine h.imp ?_
    intro a b hab x hx y hy
    rw [List.eq_of_mem_replicate hx, List.eq_of_mem_replicate hy]
    exact hab

/-- An exhausted reader signals end-of-sequence on every further read. -/
theorem runReads_exhausted (fuel : Nat) (k : IterKind) (sch : Schema) (r : Row) :
    runReads (fuel + 1) ⟨⟨k, []⟩, sch, r, 0⟩ = ([], some TableError.eof) := rfl

/-- Trace of a partition reader: the full expansion of the entries from
the start offset to the end of the map, then end-of-sequence. -/
theorem partitionReader_trace (tbl : List (Tuple × Tuple)) (sch : Schema) (start stop : Nat)
    (hwf : WFEntries (tbl.drop start)) (extra : Nat) :
    runReads (totalCount (tbl.drop start) + (extra + 1))
        (newKeylessTableReaderForPartition tbl sch start stop)
      = (expansion (tbl.drop start), some TableError.eof) := by
  have h := runReads_append (tbl.drop start) [] (IterKind.bufferedAt start) sch [] (extra + 1) hwf
  rw [List.append_nil, runReads_exhausted] at h
  simpa [newKeylessTableReaderForPartition, mapBufferedIterAt] using h

/-! ### Claim theorems: keyless reader -/

/-- Sample well-formed physical entries and a malformed one, used by the
witnesses below. -/
def sampleEntryA : Tuple × Tuple := ([Value.int 0], [Value.uint 2, Value.str "a"])

def sampleEntryB : Tuple × Tuple := ([Value.int 1], [Value.uint 1, Value.str "b"])

def sampleBadEntry : Tuple × Tuple := ([Value.int 2], [Value.str "x"])

/-- C1: reading a keyless table from the beginning yields each logical
row exactly its stored duplicate count many times in map order — the
trace is exactly the expansion of the physical entries — for a total of
`sum(counts)` rows, after which end-of-sequence (`io.EOF`) is signalled
no matter how many further reads are attempted; the emitted keys respect
any reflexive order the physical keys satisfy pairwise (non-decreasing
key order); and every `ReadRow` call made while a duplicate is buffered
returns the buffered row and decrements the remaining count by exactly
one. -/
theorem keyless_full_scan_spec (tbl : List (Tuple × Tuple)) (sch : Schema) (buffered : Bool)
    (hwf : WFEntries tbl) :
    (∀ extra : Nat,
      runReads (totalCount tbl + (extra + 1)) (newKeylessTableReader tbl sch buffered)
        = (expansion tbl, some TableError.eof))
    ∧ (expansion tbl).length = totalCount tbl
    ∧ (∀ R : Tuple → Tuple → Prop, (∀ t, R t t) →
        (tbl.map Prod.fst).Pairwise R → (expandedKeys tbl).Pairwise R)
    ∧ (∀ rdr : KeylessTableReader, rdr.duplicates ≠ 0 →
        keylessTableReader.ReadRow rdr
          = .ok (rdr.row, { rdr with duplicates := rdr.duplicates - 1 })) := by
  refine ⟨?_, expansion_length tbl,
    fun R hrefl h => pairwise_expandedKeys R hrefl tbl h, readRow_emit⟩
  intro extra
  cases buffered with
  | true =>
    have h := runReads_append tbl [] IterKind.plain sch [] (extra + 1) hwf
    rw [List.append_nil, runReads_exhausted] at h
    simpa [newKeylessTableReader, mapIterOf] using h
  | false =>
    have h := runReads_append tbl [] IterKind.buffered sch [] (extra + 1) hwf
    rw [List.append_nil, runReads_exhausted] at h
    simpa [newKeylessTableReader, mapBufferedIterOf] using h

theorem keyless_full_scan_spec_witness :
    WFEntries [sampleEntryA, sampleEntryB]
    ∧ runReads (totalCount [sampleEntryA, sampleEntryB] + 1)
        (newKeylessTableReader [sampleEntryA, sampleEntryB] [] true)
      = (expansion [sampleEntryA, sampleEntryB], some TableError.eof) :=
  ⟨by decide, (keyless_full_scan_spec [sampleEntryA, sampleEntryB] [] true (by decide)).1 0⟩

/-- C6: against the claim, the source's `newKeylessTableReader` picks the
plain `Iterator` when `buffered` is true and the `BufferedIterator` when
`buffered` is false (the branch at lines 85–90 is inverted with respect
to the flag's name). -/
theorem buffered_flag_inverts_iterator_primitive (tbl : List (Tuple × Tuple)) (sch : Schema) :
    (newKeylessTableReader tbl sch true).iter = mapIterOf tbl
    ∧ (newKeylessTableReader tbl sch false).iter = mapBufferedIterOf tbl
    ∧ (newKeylessTableReader tbl sch true).iter.kind = IterKind.plain
    ∧ (newKeylessTableReader tbl sch false).iter.kind = IterKind.buffered :=
  ⟨rfl, rfl, rfl, rfl⟩

/-- C7: a reader constructed at a physical offset emits every physical
entry from that offset onward with its full stored duplicate count (no
boundary correction), so all copies of a boundary entry go to the
partition starting at or after it; the map's total expansion splits
exactly at the offset. -/
theorem partition_reader_full_counts (tbl : List (Tuple × Tuple)) (sch : Schema)
    (start stop : Nat) (hwf : WFEntries (tbl.drop start)) :
    (∀ extra : Nat,
      runReads (totalCount (tbl.drop start) + (extra + 1))
          (newKeylessTableReaderForPartition tbl sch start stop)
        = (expansion (tbl.drop start), some TableError.eof))
    ∧ expansion (tbl.take start) ++ expansion (tbl.drop start) = expansion tbl := by
  constructor
  · exact fun extra => partitionReader_trace tbl sch start stop hwf extra
  · rw [expansion, expansion, expansion, ← List.flatMap_append, List.take_append_drop]

theorem partition_reader_full_counts_witness :
    WFEntries ([sampleEntryA, sampleEntryB].drop 1)
    ∧ runReads (totalCount ([sampleEntryA, sampleEntryB].drop 1) + 1)
        (newKeylessTableReaderForPartition [sampleEntryA, sampleEntryB] [] 1 2)
      = (expansion ([sampleEntryA, sampleEntryB].drop 1), some TableError.eof) :=
  ⟨by decide, (partition_reader_full_counts [sampleEntryA, sampleEntryB] [] 1 2 (by decide)).1 0⟩

/-- C8: constructing a reader over arbitrary key ranges always fails with
the not-implemented error and never produces a reader. -/
theorem range_reader_fails_not_implemented (tbl : List (Tuple × Tuple)) (sch : Schema)
    (ranges : List ReadRange) :
    newKeylessTableReaderForRanges tbl sch ranges
        = .error (.notImplemented "newKeylessTableReaderForRanges is unimplemented")
    ∧ (newKeylessTableReaderForRanges tbl sch ranges).isOk = false :=
  ⟨rfl, rfl⟩

/-- The plain `ReadRow` embedding is the outcome projection of the
state-tracking one: the two agree on every path, the plain one merely
dropping the receiver state alongside an error. -/
theorem readRow_projects_withState (rdr : KeylessTableReader) :
    keylessTableReader.ReadRow rdr
      = match keylessTableReader.ReadRowWithState rdr with
        | (Except.ok r, rdr') => .ok (r, rdr')
        | (Except.error e, _) => .error e := by
  unfold keylessTableReader.ReadRow keylessTableReader.ReadRowWithState
  by_cases h : rdr.duplicates = 0
  · simp only [h, reduceIte]
    cases hes : rdr.iter.entries with
    | nil => rfl
    | cons e rest =>
      obtain ⟨ek, ev⟩ := e
      cases hd : KeylessRowsFromTuples ek ev with
      | error e2 => simp [hd]
      | ok p =>
        obtain ⟨r, n⟩ := p
        simp [hd]
  · simp only [h, reduceIte]

/-- One-step unfolding of `readOutcomes`. -/
theorem readOutcomes_succ (fuel : Nat) (rdr : KeylessTableReader) :
    readOutcomes (fuel + 1) rdr
      = (keylessTableReader.ReadRowWithState rdr).1
          :: readOutcomes fuel (keylessTableReader.ReadRowWithState rdr).2 := rfl

/-- An exhausted reader keeps signalling end-of-sequence: its state is
left unchanged, so every further call returns `io.EOF` again. -/
theorem readOutcomes_exhausted (fuel : Nat) (k : IterKind) (sch : Schema) (r : Row) :
    readOutcomes fuel ⟨⟨k, []⟩, sch, r, 0⟩
      = List.replicate fuel (Except.error TableError.eof) := by
  induction fuel with
  | zero => rfl
  | succ fuel ih =>
    rw [readOutcomes_succ]
    have hstep : keylessTableReader.ReadRowWithState ⟨⟨k, []⟩, sch, r, 0⟩
        = (.error .eof, ⟨⟨k, []⟩, sch, r, 0⟩) := rfl
    rw [hstep]
    simp [ih, List.replicate_succ]

/-- With no duplicate buffered, the outcome sequence does not depend on
the stale `row` field. -/
theorem readOutcomes_row_irrel (fuel : Nat) (k : IterKind) (es : List (Tuple × Tuple))
    (sch : Schema) (r1 r2 : Row) :
    readOutcomes fuel ⟨⟨k, es⟩, sch, r1, 0⟩ = readOutcomes fuel ⟨⟨k, es⟩, sch, r2, 0⟩ := by
  cases es with
  | nil => rw [readOutcomes_exhausted, readOutcomes_exhausted]
  | cons e rest =>
    cases fuel with
    | zero => rfl
    | succ fuel =>
      rw [readOutcomes_succ, readOutcomes_succ]
      unfold keylessTableReader.ReadRowWithState
      obtain ⟨ek, ev⟩ := e
      simp only [reduceIte]

/-- Unrolling the duplicate buffer for the outcome runner: with `d`
duplicates remaining, the first `d` outcomes are the buffered row. -/
theorem readOutcomes_dup (d : Nat) (fuel : Nat) (it : MapIterator) (sch : Schema) (r : Row) :
    readOutcomes (d + fuel) ⟨it, sch, r, d⟩
      = List.replicate d (Except.ok r) ++ readOutcomes fuel ⟨it, sch, r, 0⟩ := by
  induction d with
  | zero => simp
  | succ d ih =>
    have hstep : keylessTableReader.ReadRowWithState ⟨it, sch, r, d + 1⟩
        = (.ok r, ⟨it, sch, r, d⟩) := by
      unfold keylessTableReader.ReadRowWithState
      simp
    have hfuel : d + 1 + fuel = (d + fuel) + 1 := by omega
    rw [hfuel, readOutcomes_succ, hstep]
    simp only
    rw [ih]
    simp [List.replicate_succ]

/-- Composition for the outcome runner: a reader whose iterator holds
`pre ++ post` (all of `pre` decodable) first produces exactly the
expansion of `pre` as successful outcomes, then behaves as a reader over
`post`. -/
theorem readOutcomes_append (pre : List (Tuple × Tuple)) (post : List (Tuple × Tuple))
    (k : IterKind) (sch : Schema) (r : Row) (fuel : Nat) (hwf : WFEntries pre) :
    readOutcomes (totalCount pre + fuel) ⟨⟨k, pre ++ post⟩, sch, r, 0⟩
      = (expansion pre).map Except.ok ++ readOutcomes fuel ⟨⟨k, post⟩, sch, r, 0⟩ := by
  induction pre generalizing r with
  | nil => simp [expansion, totalCount]
  | cons e pre ih =>
    obtain ⟨ek, ev⟩ := e
    have hok : (KeylessRowsFromTuples ek ev).isOk = true :=
      hwf (ek, ev) (List.mem_cons_self _ _)
    obtain ⟨r0, n, hdec⟩ : ∃ r0 n, KeylessRowsFromTuples ek ev = .ok (r0, n) := by
      cases h : KeylessRowsFromTuples ek ev with
      | error e2 => rw [h] at hok; simp [Except.isOk, Except.toBool] at hok
      | ok p =>
        obtain ⟨r0, n⟩ := p
        exact ⟨r0, n, rfl⟩
    have hn : 1 ≤ n := keylessRows_pos _ _ _ _ hdec
    have hcount : totalCount ((ek, ev) :: pre) = n + totalCount pre := by
      simp [totalCount, entryCount_eq (ek, ev) r0 n hdec]
    have hstep : keylessTableReader.ReadRowWithState ⟨⟨k, ((ek, ev) :: pre) ++ post⟩, sch, r, 0⟩
        = (.ok r0, ⟨⟨k, pre ++ post⟩, sch, r0, n - 1⟩) := by
      unfold keylessTableReader.ReadRowWithState
      simp [hdec]
    have hfuel : totalCount ((ek, ev) :: pre) + fuel
        = ((n - 1) + (totalCount pre + fuel)) + 1 := by
      rw [hcount]; omega
    rw [hfuel, readOutcomes_succ, hstep]
    simp only
    rw [readOutcomes_dup (n - 1) (totalCount pre + fuel) ⟨k, pre ++ post⟩ sch r0]
    rw [ih r0 (fun e2 he => hwf e2 (List.mem_cons_of_mem _ he))]
    rw [readOutcomes_row_irrel fuel k post sch r0 r]
    have hexp : expansion ((ek, ev) :: pre) = List.replicate n r0 ++ expansion pre := by
      simp [expansion, expandEntry_eq (ek, ev) r0 n hdec]
    rw [hexp]
    have hrep : (List.replicate n r0 : List Row) = r0 :: List.replicate (n - 1) r0 := by
      cases n with
      | zero => omega
      | succ m => simp [List.replicate_succ]
    rw [hrep]
    simp [List.map_replicate]

/-- A malformed head entry yields exactly one `MalformedRowError`
outcome; the entry is consumed (the iterator has already advanced) and
the scan continues over the remaining entries. -/
theorem readOutcomes_malformed (fuel : Nat) (k : IterKind) (sch : Schema) (r : Row)
    (bad : Tuple × Tuple) (rest : List (Tuple × Tuple))
    (hbad : (KeylessRowsFromTuples bad.1 bad.2).isOk = false) :
    readOutcomes (fuel + 1) ⟨⟨k, bad :: rest⟩, sch, r, 0⟩
      = .error TableError.malformedRow :: readOutcomes fuel ⟨⟨k, rest⟩, sch, [], 0⟩ := by
  have herr := keylessRows_fail bad.1 bad.2 hbad
  obtain ⟨bk, bv⟩ := bad
  rw [readOutcomes_succ]
  have hstep : keylessTableReader.ReadRowWithState ⟨⟨k, (bk, bv) :: rest⟩, sch, r, 0⟩
      = (.error .malformedRow, ⟨⟨k, rest⟩, sch, [], 0⟩) := by
    unfold keylessTableReader.ReadRowWithState
    simp [herr]
  rw [hstep]

/-- C9 counterexample: with a malformed first entry followed by a good
one, the call right after the surfaced `MalformedRowError` succeeds with
the next entry's row — the error does not kill the scan, refuting the
claim's `fatal for that scan` clause at a concrete input. -/
theorem malformed_entry_not_fatal_counterexample :
    (keylessTableReader.ReadRowWithState
        (newKeylessTableReader [sampleBadEntry, sampleEntryA] [] true)).1
      = .error TableError.malformedRow
    ∧ (keylessTableReader.ReadRowWithState
        (keylessTableReader.ReadRowWithState
          (newKeylessTableReader [sampleBadEntry, sampleEntryA] [] true)).2).1
      = .ok [Value.str "a"]
    ∧ readOutcomes 4 (newKeylessTableReader [sampleBadEntry, sampleEntryA] [] true)
      = [.error TableError.malformedRow, .ok [Value.str "a"], .ok [Value.str "a"],
         .error TableError.eof] :=
  ⟨rfl, rfl, rfl⟩

/-- C9 (amended): when decoding a physical entry fails, `ReadRow`
surfaces `MalformedRowError` to the caller exactly once and emits no
logical row for that entry; the malformed entry is consumed and its
decode is never retried — but the error is not fatal to the scan: a
subsequent call resumes at the next physical entry, emitting the
remaining entries' rows and then end-of-sequence. -/
theorem malformed_entry_surfaced_and_skipped (sch : Schema) (good : List (Tuple × Tuple))
    (bad : Tuple × Tuple) (rest : List (Tuple × Tuple)) (buffered : Bool)
    (hwf : WFEntries good) (hbad : (KeylessRowsFromTuples bad.1 bad.2).isOk = false)
    (hwfrest : WFEntries rest) :
    readOutcomes (totalCount good + (totalCount rest + 2))
        (newKeylessTableReader (good ++ bad :: rest) sch buffered)
      = (expansion good).map Except.ok
        ++ .error TableError.malformedRow
          :: ((expansion rest).map Except.ok ++ [.error TableError.eof]) := by
  have htail : ∀ (k : IterKind) (r : Row),
      readOutcomes (totalCount rest + 2) ⟨⟨k, bad :: rest⟩, sch, r, 0⟩
        = .error TableError.malformedRow
            :: ((expansion rest).map Except.ok ++ [.error TableError.eof]) := by
    intro k r
    have h1 : totalCount rest + 2 = (totalCount rest + 1) + 1 := by omega
    rw [h1, readOutcomes_malformed (totalCount rest + 1) k sch r bad rest hbad]
    have h2 := readOutcomes_append rest [] k sch [] 1 hwfrest
    rw [List.append_nil] at h2
    rw [h2]
    rfl
  cases buffered with
  | true =>
    have h := readOutcomes_append good (bad :: rest) IterKind.plain sch []
      (totalCount rest + 2) hwf
    rw [htail] at h
    simpa [newKeylessTableReader, mapIterOf] using h
  | false =>
    have h := readOutcomes_append good (bad :: rest) IterKind.buffered sch []
      (totalCount rest + 2) hwf
    rw [htail] at h
    simpa [newKeylessTableReader, mapBufferedIterOf] using h

theorem malformed_entry_surfaced_and_skipped_witness :
    (WFEntries [sampleEntryA]
    ∧ (KeylessRowsFromTuples sampleBadEntry.1 sampleBadEntry.2).isOk = false
    ∧ WFEntries [sampleEntryB])
    ∧ readOutcomes (totalCount [sampleEntryA] + (totalCount [sampleEntryB] + 2))
        (newKeylessTableReader ([sampleEntryA] ++ sampleBadEntry :: [sampleEntryB]) [] true)
      = (expansion [sampleEntryA]).map Except.ok
        ++ .error TableError.malformedRow
          :: ((expansion [sampleEntryB]).map Except.ok ++ [.error TableError.eof]) :=
  ⟨⟨by decide, by decide, by decide⟩,
   malformed_entry_surfaced_and_skipped [] [sampleEntryA] sampleBadEntry [sampleEntryB] true
     (by decide) (by decide) (by decide)⟩

/-- C10: the partition reader's behavior depends only on its start
offset, never on its end bound: any two end values give identical readers
(the constructor never reads its end argument), and such a reader
iterates to the very end of the map. -/
theorem partition_reader_independent_of_end (tbl : List (Tuple × Tuple)) (sch : Schema)
    (start stop1 stop2 : Nat) :
    newKeylessTableReaderForPartition tbl sch start stop1
        = newKeylessTableReaderForPartition tbl sch start stop2
    ∧ (WFEntries (tbl.drop start) → ∀ stop extra,
        runReads (totalCount (tbl.drop start) + (extra + 1))
            (newKeylessTableReaderForPartition tbl sch start stop)
          = (expansion (tbl.drop start), some TableError.eof)) :=
  ⟨rfl, fun hwf stop extra => partitionReader_trace tbl sch start stop hwf extra⟩

theorem partition_reader_independent_of_end_witness :
    newKeylessTableReaderForPartition [sampleEntryA, sampleEntryB] [] 1 1
        = newKeylessTableReaderForPartition [sampleEntryA, sampleEntryB] [] 1 99
    ∧ runReads (totalCount ([sampleEntryA, sampleEntryB].drop 1) + 1)
        (newKeylessTableReaderForPartition [sampleEntryA, sampleEntryB] [] 1 42)
      = (expansion ([sampleEntryA, sampleEntryB].drop 1), some TableError.eof) :=
  ⟨(partition_reader_independent_of_end [sampleEntryA, sampleEntryB] [] 1 1 99).1,
   (partition_reader_independent_of_end [sampleEntryA, sampleEntryB] [] 1 1 99).2 (by decide) 42 0⟩

/-! ### Claim theorems: row codec -/

/-- A small primary-keyed schema in the shape of the `people` test table:
`id` (primary key, int, NOT NULL), `first` (string, NOT NULL), `age`
(int, nullable); used by the witnesses below. -/
def sampleSchema : Schema :=
  [⟨0, ValType.tInt, false, true⟩, ⟨1, ValType.tStr, false, false⟩,
   ⟨2, ValType.tInt, true, false⟩]

def sampleRowHomer : Row := [Value.int 0, Value.str "Homer", Value.int 40]

def sampleRowMarge : Row := [Value.int 1, Value.str "Marge", Value.int 38]

/-- Splitting a row into its primary-key and remaining fields and merging
them back along the schema is the identity. -/
theorem mergePk_select (s : Schema) (r : Row) (hlen : r.length = s.length) :
    mergePkRow s (selectPk s r) (selectNonPk s r) = r := by
  induction s generalizing r with
  | nil =>
    cases r with
    | nil => rfl
    | cons v vs => simp at hlen
  | cons c cs ih =>
    cases r with
    | nil => simp at hlen
    | cons v vs =>
      have hlen2 : vs.length = cs.length := by simpa using hlen
      cases hc : c.isPk with
      | true => simp [selectPk, selectNonPk, mergePkRow, hc, ih vs hlen2]
      | false => simp [selectPk, selectNonPk, mergePkRow, hc, ih vs hlen2]

/-- C5: for every row conforming to the schema and every valid duplicate
count (positive, and 1 on a primary-keyed schema, where no duplicate
count is stored), decoding the encoding returns the original pair; and on
a primary-keyed schema every decode yields duplicate count 1. -/
theorem codec_roundtrip (s : Schema) (r : Row) (n : Nat) (hlen : r.length = s.length)
    (hn : 1 ≤ n) (hpk : s.hasPk = true → n = 1) :
    decode s (encode s r n).1 (encode s r n).2 = .ok (r, n)
    ∧ (s.hasPk = true → ∀ key val, ∃ r2, decode s key val = .ok (r2, 1)) := by
  cases hspk : s.hasPk with
  | false =>
    constructor
    · simp [encode, decode, hspk, keylessKey, KeylessRowsFromTuples, hn]
    · intro h
      simp [hspk] at h
  | true =>
    have hn1 : n = 1 := hpk hspk
    subst hn1
    constructor
    · simp [encode, decode, hspk, mergePk_select s r hlen]
    · intro _ key val
      exact ⟨mergePkRow s key val, by simp [decode, hspk]⟩

theorem codec_roundtrip_witness :
    sampleSchema.hasPk = true
    ∧ decode sampleSchema (encode sampleSchema sampleRowHomer 1).1
        (encode sampleSchema sampleRowHomer 1).2 = .ok (sampleRowHomer, 1) :=
  ⟨by decide,
   (codec_roundtrip sampleSchema sampleRowHomer 1 (by decide) (by decide) (fun _ => rfl)).1⟩

/-! ### Update Engine lemmas -/

/-- `firstDup` reports nothing exactly on duplicate-free lists. -/
theorem firstDup_eq_none_iff (l : List Tuple) : firstDup l = none ↔ l.Nodup := by
  induction l with
  | nil => simp [firstDup]
  | cons k ks ih =>
    unfold firstDup
    by_cases hc : k ∈ ks
    · simp [hc]
    · simp [hc, ih]

/-- A duplicated key in the resulting key set makes the Collision
Detector report some key. -/
theorem collisionCheck_some_of (s : Schema) (rows : List Row) (st : List Staged)
    (h : ¬ (st.map (·.newKey) ++ untouchedKeys s rows st).Nodup) :
    ∃ k, collisionCheck s rows st = some k := by
  unfold collisionCheck
  cases hfd : firstDup (st.map (·.newKey) ++ untouchedKeys s rows st) with
  | none => exact absurd ((firstDup_eq_none_iff _).1 hfd) h
  | some k => exact ⟨k, rfl⟩

/-- Every staged change of a successful scan comes from a predicate-
matched row whose validated candidate differs from it, and carries that
row's old key and the candidate's new key. -/
theorem scanRows_staged (s : Schema) (pred : Row → Bool) (asgns : List (Nat × Value)) :
    ∀ (rows : List Row) (st : List Staged) (unch : Nat),
      scanRows s pred asgns rows = .ok (st, unch) →
      ∀ c ∈ st, ∃ r ∈ rows, pred r = true ∧ candidateRow s asgns r = .ok c.newRow
        ∧ c.oldKey = selectPk s r ∧ c.newKey = selectPk s c.newRow ∧ c.newRow ≠ r := by
  intro rows
  induction rows with
  | nil =>
    intro st unch h c hc
    unfold scanRows at h
    simp only [Except.ok.injEq, Prod.mk.injEq] at h
    rw [← h.1] at hc
    cases hc
  | cons r rs ih =>
    intro st unch h c hc
    unfold scanRows at h
    by_cases hp : pred r
    · simp only [hp, if_true] at h
      cases hcand : candidateRow s asgns r with
      | error e => rw [hcand] at h; cases h
      | ok r2 =>
        rw [hcand] at h
        cases hscan : scanRows s pred asgns rs with
        | error e => rw [hscan] at h; cases h
        | ok p =>
          obtain ⟨st2, unch2⟩ := p
          rw [hscan] at h
          by_cases hr2 : r2 = r
          · simp only [hr2, if_true, reduceIte, Except.ok.injEq, Prod.mk.injEq] at h
            rw [← h.1] at hc
            obtain ⟨r3, hr3, hrest⟩ := ih st2 unch2 (by rw [hscan]) c hc
            exact ⟨r3, List.mem_cons_of_mem _ hr3, hrest⟩
          · simp only [hr2, if_false, reduceIte, Except.ok.injEq, Prod.mk.injEq] at h
            rw [← h.1] at hc
            cases hc with
            | head =>
              refine ⟨r, List.mem_cons_self _ _, hp, ?_, rfl, rfl, hr2⟩
              simpa using hcand
            | tail _ hc2 =>
              obtain ⟨r3, hr3, hrest⟩ := ih st2 unch2 (by rw [hscan]) c hc2
              exact ⟨r3, List.mem_cons_of_mem _ hr3, hrest⟩
    · simp only [hp] at h
      simp only [Bool.false_eq_true, if_false] at h
      obtain ⟨r3, hr3, hrest⟩ := ih st unch h c hc
      exact ⟨r3, List.mem_cons_of_mem _ hr3, hrest⟩

/-- A successful scan counts exactly the matched-and-unchanged rows as
`unchanged` and stages exactly the matched-and-changed rows. -/
theorem scanRows_counts (s : Schema) (pred : Row → Bool) (asgns : List (Nat × Value)) :
    ∀ (rows : List Row) (st : List Staged) (unch : Nat),
      scanRows s pred asgns rows = .ok (st, unch) →
      unch = (rows.filter
          (fun r => pred r && decide (candidateRow s asgns r = .ok r))).length
      ∧ st.length = (rows.filter
          (fun r => pred r && !decide (candidateRow s asgns r = .ok r))).length := by
  intro rows
  induction rows with
  | nil =>
    intro st unch h
    unfold scanRows at h
    simp only [Except.ok.injEq, Prod.mk.injEq] at h
    simp [← h.1, ← h.2]
  | cons r rs ih =>
    intro st unch h
    unfold scanRows at h
    by_cases hp : pred r
    · simp only [hp, if_true] at h
      cases hcand : candidateRow s asgns r with
      | error e => rw [hcand] at h; cases h
      | ok r2 =>
        rw [hcand] at h
        cases hscan : scanRows s pred asgns rs with
        | error e => rw [hscan] at h; cases h
        | ok p =>
          obtain ⟨st2, unch2⟩ := p
          rw [hscan] at h
          obtain ⟨ihu, ihs⟩ := ih st2 unch2 hscan
          by_cases hr2 : r2 = r
          · simp only [hr2, if_true, reduceIte, Except.ok.injEq, Prod.mk.injEq] at h
            subst hr2
            simp [List.filter_cons, hp, hcand, ← h.1, ← h.2, ihu, ihs]
          · simp only [hr2, if_false, reduceIte, Except.ok.injEq, Prod.mk.injEq] at h
            have hne : ¬ candidateRow s asgns r = .ok r := by
              rw [hcand]
              simp [hr2]
            simp [List.filter_cons, hp, hne, ← h.1, ← h.2, ihu, ihs]
    · simp only [hp] at h
      simp only [Bool.false_eq_true, if_false] at h
      obtain ⟨ihu, ihs⟩ := ih st unch h
      simp [List.filter_cons, hp, ihu, ihs]

/-- A row whose key is not superseded cannot carry a staged old key: the
row is either unmatched or its candidate equals it, and staged old keys
come only from matched rows with a differing candidate. -/
theorem not_staged_oldKey (s : Schema) (pred : Row → Bool) (asgns : List (Nat × Value))
    (rows : List Row) (st : List Staged) (unch : Nat)
    (hkeys : (rows.map (selectPk s)).Nodup)
    (hscan : scanRows s pred asgns rows = .ok (st, unch))
    (r : Row) (hr : r ∈ rows)
    (hside : pred r = false ∨ candidateRow s asgns r = .ok r) :
    selectPk s r ∉ st.map (·.oldKey) := by
  intro hmem
  obtain ⟨c, hcst, hco⟩ := List.mem_map.1 hmem
  obtain ⟨r2, hr2, hpred2, hcand2, hold2, -, hne2⟩ :=
    scanRows_staged s pred asgns rows st unch hscan c hcst
  have heq : r2 = r :=
    List.inj_on_of_nodup_map hkeys hr2 hr (by rw [← hold2, hco])
  subst heq
  cases hside with
  | inl hf => rw [hpred2] at hf; cases hf
  | inr hc =>
    rw [hcand2] at hc
    simp only [Except.ok.injEq] at hc
    exact hne2 hc

/-- On any error, the caller's snapshot and reported update count are
untouched. -/
theorem retained_eq_of_error (s : Schema) (rows : List Row) (pred : Row → Bool)
    (asgns : List (Nat × Value)) (e : UpdateError)
    (herr : executeUpdate s rows pred asgns = .error e) :
    retainedRows s rows pred asgns = rows ∧ reportedRowsUpdated s rows pred asgns = 0 := by
  unfold retainedRows reportedRowsUpdated
  rw [herr]
  exact ⟨rfl, rfl⟩

/-- Reduction of `executeUpdate` when the Collision Detector reports a
key. -/
theorem executeUpdate_eq_collision (s : Schema) (rows : List Row) (pred : Row → Bool)
    (asgns : List (Nat × Value)) (st : List Staged) (unch : Nat) (k : Tuple)
    (hdup : firstDupNat (asgns.map (·.1)) = none)
    (hscan : scanRows s pred asgns rows = .ok (st, unch))
    (hcol : collisionCheck s rows st = some k) :
    executeUpdate s rows pred asgns = .error (.primaryKeyCollision k) := by
  unfold executeUpdate
  simp only [hdup, hscan, hcol]

/-- Reduction of a successful `executeUpdate`. -/
theorem executeUpdate_ok_inv (s : Schema) (rows : List Row) (pred : Row → Bool)
    (asgns : List (Nat × Value)) (res : UpdateResult)
    (hok : executeUpdate s rows pred asgns = .ok res) :
    ∃ st unch, scanRows s pred asgns rows = .ok (st, unch)
      ∧ collisionCheck s rows st = none
      ∧ res = ⟨commitStaged s rows st, st.length, unch, 0⟩ := by
  unfold executeUpdate at hok
  cases hdup : firstDupNat (asgns.map (·.1)) with
  | some t => simp only [hdup] at hok; cases hok
  | none =>
    simp only [hdup] at hok
    cases hscan : scanRows s pred asgns rows with
    | error e => simp only [hscan] at hok; cases hok
    | ok p =>
      obtain ⟨st, unch⟩ := p
      simp only [hscan] at hok
      cases hcol : collisionCheck s rows st with
      | some k => simp only [hcol] at hok; cases hok
      | none =>
        simp only [hcol, Except.ok.injEq] at hok
        exact ⟨st, unch, rfl, hcol, hok.symm⟩

/-! ### Claim theorems: Update Engine -/

/-- C2: whenever `executeUpdate` returns an error — a validation failure,
a duplicated assignment column, or a primary-key collision — the snapshot
the caller retains is the input snapshot, with exactly the same logical
rows; no accepted mutation is partially committed. -/
theorem update_error_leaves_snapshot (s : Schema) (rows : List Row) (pred : Row → Bool)
    (asgns : List (Nat × Value))
    (herr : ∃ e, executeUpdate s rows pred asgns = .error e) :
    retainedRows s rows pred asgns = rows := by
  obtain ⟨e, he⟩ := herr
  exact (retained_eq_of_error s rows pred asgns e he).1

theorem update_error_leaves_snapshot_witness :
    executeUpdate sampleSchema [sampleRowHomer, sampleRowMarge] (fun _ => true) [(1, Value.null)]
        = .error (.nullConstraintViolation 1)
    ∧ retainedRows sampleSchema [sampleRowHomer, sampleRowMarge] (fun _ => true) [(1, Value.null)]
        = [sampleRowHomer, sampleRowMarge] :=
  ⟨rfl, update_error_leaves_snapshot sampleSchema [sampleRowHomer, sampleRowMarge]
    (fun _ => true) [(1, Value.null)] ⟨.nullConstraintViolation 1, rfl⟩⟩

/-- The predicate and assignment list of the collision witness below:
`update people set id = 0 where first = "Marge"` against rows Homer
(id 0) and Marge (id 1). -/
def collisionPred : Row → Bool := fun r => decide (r = sampleRowMarge)

def collisionAsgns : List (Nat × Value) := [(0, Value.int 0)]

def collisionStaged : Staged :=
  ⟨[Value.int 1], [Value.int 0], [Value.int 0, Value.str "Marge", Value.int 38]⟩

/-- C3: on a duplicate-key-free snapshot, when the scan stages two
changes onto the same new primary key, or stages a new primary key that
is the key of an existing row the predicate did not select,
`executeUpdate` returns `PrimaryKeyCollisionError`, the caller observes
`rowsUpdated = 0`, and every row of the table is left unchanged. -/
theorem pk_collision_rejected (s : Schema) (rows : List Row) (pred : Row → Bool)
    (asgns : List (Nat × Value)) (st : List Staged) (unch : Nat)
    (hkeys : (rows.map (selectPk s)).Nodup)
    (hdup : firstDupNat (asgns.map (·.1)) = none)
    (hscan : scanRows s pred asgns rows = .ok (st, unch))
    (hcol : (¬ (st.map (·.newKey)).Nodup)
      ∨ ∃ c ∈ st, ∃ r ∈ rows, pred r = false ∧ c.newKey = selectPk s r) :
    (∃ k, executeUpdate s rows pred asgns = .error (.primaryKeyCollision k))
    ∧ retainedRows s rows pred asgns = rows
    ∧ reportedRowsUpdated s rows pred asgns = 0 := by
  have hnotnodup : ¬ (st.map (·.newKey) ++ untouchedKeys s rows st).Nodup := by
    cases hcol with
    | inl hnd => exact fun hh => hnd (List.Nodup.sublist (List.sublist_append_left _ _) hh)
    | inr hex =>
      obtain ⟨c, hcst, r, hr, hpf, hkey⟩ := hex
      intro hh
      rw [List.nodup_append] at hh
      have hL : c.newKey ∈ st.map (·.newKey) := List.mem_map_of_mem _ hcst
      have hnotold : selectPk s r ∉ st.map (·.oldKey) :=
        not_staged_oldKey s pred asgns rows st unch hkeys hscan r hr (Or.inl hpf)
      have hR : c.newKey ∈ untouchedKeys s rows st := by
        rw [hkey]
        unfold untouchedKeys
        rw [List.mem_filter]
        exact ⟨List.mem_map_of_mem _ hr, by simpa using hnotold⟩
      exact hh.2.2 hL hR
  obtain ⟨k, hck⟩ := collisionCheck_some_of s rows st hnotnodup
  have he := executeUpdate_eq_collision s rows pred asgns st unch k hdup hscan hck
  obtain ⟨h1, h2⟩ := retained_eq_of_error s rows pred asgns _ he
  exact ⟨⟨k, he⟩, h1, h2⟩

theorem pk_collision_rejected_witness :
    (∃ k, executeUpdate sampleSchema [sampleRowHomer, sampleRowMarge] collisionPred collisionAsgns
        = .error (.primaryKeyCollision k))
    ∧ retainedRows sampleSchema [sampleRowHomer, sampleRowMarge] collisionPred collisionAsgns
        = [sampleRowHomer, sampleRowMarge]
    ∧ reportedRowsUpdated sampleSchema [sampleRowHomer, sampleRowMarge] collisionPred
        collisionAsgns = 0 :=
  pk_collision_rejected sampleSchema [sampleRowHomer, sampleRowMarge] collisionPred
    collisionAsgns [collisionStaged] 0 (by decide) rfl (by decide)
    (Or.inr ⟨collisionStaged, by decide, sampleRowHomer, by decide, by decide, by decide⟩)

/-- The all-rows predicate and the assignment of the unchanged-row
witness below: `update people set first = "Homer"` leaves Homer's row
unchanged and changes Marge's. -/
def unchangedPred : Row → Bool := fun _ => true

def unchangedAsgns : List (Nat × Value) := [(1, Value.str "Homer")]

def sampleUpdateResult : UpdateResult :=
  ⟨[sampleRowHomer, [Value.int 1, Value.str "Homer", Value.int 38]], 1, 1, 0⟩

/-- C4: on a successful run over a duplicate-key-free snapshot, the
matched rows whose validated candidate equals the original are counted
exactly in `rowsUnchanged`, the matched rows whose candidate differs are
counted exactly in `rowsUpdated` (so an unchanged row is never counted
there), and every matched-but-unchanged row survives untouched in the new
snapshot. -/
theorem unchanged_rows_accounting (s : Schema) (rows : List Row) (pred : Row → Bool)
    (asgns : List (Nat × Value)) (res : UpdateResult)
    (hkeys : (rows.map (selectPk s)).Nodup)
    (hok : executeUpdate s rows pred asgns = .ok res) :
    res.rowsUnchanged
        = (rows.filter (fun r => pred r && decide (candidateRow s asgns r = .ok r))).length
    ∧ res.rowsUpdated
        = (rows.filter (fun r => pred r && !decide (candidateRow s asgns r = .ok r))).length
    ∧ ∀ r ∈ rows, pred r = true → candidateRow s asgns r = .ok r → r ∈ res.newRows := by
  obtain ⟨st, unch, hscan, hcol, hres⟩ := executeUpdate_ok_inv s rows pred asgns res hok
  obtain ⟨hu, hs⟩ := scanRows_counts s pred asgns rows st unch hscan
  subst hres
  refine ⟨hu, hs, ?_⟩
  intro r hr hp hcand
  show r ∈ commitStaged s rows st
  unfold commitStaged
  apply List.mem_append_left
  rw [List.mem_filter]
  refine ⟨hr, ?_⟩
  simpa using not_staged_oldKey s pred asgns rows st unch hkeys hscan r hr (Or.inr hcand)

theorem unchanged_rows_accounting_witness :
    executeUpdate sampleSchema [sampleRowHomer, sampleRowMarge] unchangedPred unchangedAsgns
        = .ok sampleUpdateResult
    ∧ sampleUpdateResult.rowsUnchanged
        = ([sampleRowHomer, sampleRowMarge].filter
            (fun r => unchangedPred r
              && decide (candidateRow sampleSchema unchangedAsgns r = .ok r))).length :=
  ⟨rfl,
   (unchanged_rows_accounting sampleSchema [sampleRowHomer, sampleRowMarge] unchangedPred
     unchangedAsgns sampleUpdateResult (by decide) rfl).1⟩

end Dolt

